import Mathlib

/-!
Verification of the fuzzy-search core of `src/app.py` (normalize_text,
SCORERS, build_choices, do_search) against its natural-language
specification.  Strings are modelled as lists of characters; pandas cell
values as an inductive `PyVal` whose `na` constructor stands for NaN.
-/

/-- Strings, modelled as lists of Unicode characters. -/
abbrev Str := List Char

/-- Characters treated as whitespace by Python's `str.split()` / `str.strip()`
(restricted to the ASCII whitespace characters, which are the only whitespace
characters relevant here). -/
def pyIsSpace (c : Char) : Bool :=
  [' ', '\t', '\n', '\r', '\x0b', '\x0c'].contains c

/-- Python `str.strip()`: drop leading and trailing whitespace. -/
def pyStrip (s : Str) : Str :=
  ((s.dropWhile pyIsSpace).reverse.dropWhile pyIsSpace).reverse

/-- Lower-case table for Python `str.lower()`: the 26 ASCII letters plus the
accented capital letters relevant to this application (the model is the
identity on all other characters). -/
def lowerTable : List (Char × Char) :=
  [('A', 'a'), ('B', 'b'), ('C', 'c'), ('D', 'd'), ('E', 'e'), ('F', 'f'),
   ('G', 'g'), ('H', 'h'), ('I', 'i'), ('J', 'j'), ('K', 'k'), ('L', 'l'),
   ('M', 'm'), ('N', 'n'), ('O', 'o'), ('P', 'p'), ('Q', 'q'), ('R', 'r'),
   ('S', 's'), ('T', 't'), ('U', 'u'), ('V', 'v'), ('W', 'w'), ('X', 'x'),
   ('Y', 'y'), ('Z', 'z'),
   ('Ł', 'ł'), ('Š', 'š'), ('Ž', 'ž'), ('Č', 'č'), ('Ė', 'ė'), ('Ū', 'ū'),
   ('Ą', 'ą'), ('Į', 'į'), ('Ę', 'ę'), ('Ų', 'ų'), ('Ö', 'ö'), ('Ü', 'ü'),
   ('Ä', 'ä'), ('É', 'é'), ('Á', 'á'), ('Ó', 'ó'), ('Ń', 'ń')]

/-- Python `str.lower()` on one character (modelled by `lowerTable`). -/
def pyLowerChar (c : Char) : Char :=
  (lowerTable.lookup c).getD c

/-- Python `str.lower()`. -/
def pyLower (s : Str) : Str :=
  s.map pyLowerChar

/-- Transliteration table of the `unidecode` library, restricted to the
accented characters relevant to this application: each maps to its closest
unaccented ASCII equivalent (for example Š→S, Ł→L, ü→u). -/
def uniTable : List (Char × Str) :=
  [('ł', ['l']), ('š', ['s']), ('ž', ['z']), ('č', ['c']), ('ė', ['e']),
   ('ū', ['u']), ('ą', ['a']), ('į', ['i']), ('ę', ['e']), ('ų', ['u']),
   ('ö', ['o']), ('ü', ['u']), ('ä', ['a']), ('é', ['e']), ('á', ['a']),
   ('ó', ['o']), ('ń', ['n']),
   ('Ł', ['L']), ('Š', ['S']), ('Ž', ['Z']), ('Č', ['C']), ('Ė', ['E']),
   ('Ū', ['U']), ('Ą', ['A']), ('Į', ['I']), ('Ę', ['E']), ('Ų', ['U']),
   ('Ö', ['O']), ('Ü', ['U']), ('Ä', ['A']), ('É', ['E']), ('Á', ['A']),
   ('Ó', ['O']), ('Ń', ['N'])]

/-- `unidecode` on one character: table lookup, all other characters pass
through unchanged. -/
def unidecodeChar (c : Char) : Str :=
  (uniTable.lookup c).getD [c]

/-- `unidecode` on a string. -/
def unidecodeStr (s : Str) : Str :=
  s.flatMap unidecodeChar

/-- The fixed punctuation set replaced by spaces in `normalize_text`
(src/app.py line 103). -/
def punctChars : List Char :=
  [',', '.', ';', ':', '_', '/', '\\', '(', ')', '[', ']',
   Char.ofNat 123, Char.ofNat 125, Char.ofNat 39, '"']

/-- Python `s.replace(ch, " ")` for a single-character pattern. -/
def replaceBySpace (ch : Char) (s : Str) : Str :=
  s.map (fun c => if c = ch then ' ' else c)

/-- The loop of `s.replace(ch, " ")` calls over `punctChars`
(src/app.py lines 103-104). -/
def punctToSpace (s : Str) : Str :=
  punctChars.foldl (fun t ch => replaceBySpace ch t) s

/-- Accumulator-based splitter behind `splitWs`; `acc` holds the current
token reversed. -/
def splitWsAux : Str → Str → List Str
  | [], acc => if acc.isEmpty then [] else [acc.reverse]
  | c :: cs, acc =>
    if pyIsSpace c then
      if acc.isEmpty then splitWsAux cs [] else acc.reverse :: splitWsAux cs []
    else splitWsAux cs (c :: acc)

/-- Python `str.split()` with no argument: split on runs of whitespace,
producing no empty tokens. -/
def splitWs (s : Str) : List Str := splitWsAux s []

/-- Python `sep.join(tokens)`. -/
def pyJoin (sep : Str) : List Str → Str
  | [] => []
  | [t] => t
  | t :: ts => t ++ sep ++ pyJoin sep ts

/-- The body of `normalize_text` after the NaN check (src/app.py lines
101-105): strip, lower-case, transliterate, replace punctuation by spaces,
collapse whitespace runs. -/
def normCore (s : Str) : Str :=
  pyJoin [' '] (splitWs (punctToSpace (unidecodeStr (pyLower (pyStrip s)))))

/-- A pandas cell value: NaN, a string, or an integer. -/
inductive PyVal where
  | na : PyVal
  | str : Str → PyVal
  | int : Nat → PyVal
deriving DecidableEq, Repr

/-- Python `str(v)` (pandas renders NaN as the three-letter string "nan"). -/
def pyStr : PyVal → Str
  | .na => ['n', 'a', 'n']
  | .str s => s
  | .int n => (Nat.repr n).toList

/-- `pd.isna`. -/
def pdIsNA : PyVal → Bool
  | .na => true
  | _ => false

/-- `normalize_text` (src/app.py lines 98-105). -/
def normalize_text (v : PyVal) : Str :=
  if pdIsNA v then [] else normCore (pyStr v)

/-! ## Corpus builder and query engine (src/app.py lines 119-145) -/

/-- A pandas DataFrame: named columns and rows of cells (each row aligned
with `cols`). -/
structure DF where
  cols : List Str
  rows : List (List PyVal)

/-- The value of column `c` in a row `r` aligned with column list `cols`
(`.na` when the column is absent; in pandas that access would raise, which
never happens on the paths modelled here). -/
def cellValue (cols : List Str) (r : List PyVal) (c : Str) : PyVal :=
  match cols, r with
  | [], _ => .na
  | _, [] => .na
  | c1 :: cols, v :: r => if c1 = c then v else cellValue cols r c

/-- The `_display` string of one record (src/app.py lines 121-124): the
field value rendered by `astype(str)` for a single selected column, or the
`" | "`-join of the rendered values for several.  Note `astype(str)`
renders a NaN cell as the string "nan". -/
def rowDisplay (cols : List Str) (scols : List Str) (r : List PyVal) : Str :=
  match scols with
  | [c] => pyStr (cellValue cols r c)
  | _ => pyJoin " | ".toList (scols.map (fun c => pyStr (cellValue cols r c)))

/-- Output of `build_choices`: the normalized search keys and the `meta`
frame (original columns plus `_display`; the `_norm` column is dropped). -/
structure Corpus where
  choices : List Str
  metaCols : List Str
  metaRows : List (List PyVal)

/-- Column name `_display`. -/
def dispKey : Str := "_display".toList

/-- `build_choices` (src/app.py lines 119-128): per record, in order, build
the display string, normalize it into the search key, and keep all original
columns plus `_display` as `meta`. -/
def build_choices (df : DF) (scols : List Str) : Corpus where
  choices := df.rows.map (fun r => normalize_text (.str (rowDisplay df.cols scols r)))
  metaCols := df.cols ++ [dispKey]
  metaRows := df.rows.map (fun r => r ++ [.str (rowDisplay df.cols scols r)])

/-- All corpus entries scored against the normalized query, as the
`(string, score, index)` triples used by `rapidfuzz.process.extract`. -/
def scoredAll (qn : Str) (choices : List Str) (scorer : Str → Str → Nat) :
    List (Str × Nat × Nat) :=
  choices.enum.map (fun p => (p.2, scorer qn p.2, p.1))

/-- Comparison placing higher scores first; used with the stable
`List.mergeSort`, it keeps equal scores in original index order. -/
def scoreDescLe (a b : Str × Nat × Nat) : Bool :=
  b.2.1 ≤ a.2.1

/-- Modelled from the behavior of `rapidfuzz.process.extract` (an external
library, absent from src/): every choice is scored, and the best `limit`
results are returned sorted by score descending, equal scores keeping the
lower index first (the stable `heapq.nlargest` order). -/
def extract (qn : Str) (choices : List Str) (scorer : Str → Str → Nat)
    (limit : Nat) : List (Str × Nat × Nat) :=
  (List.mergeSort (scoredAll qn choices scorer) scoreDescLe).take limit

/-- A Python dict as an insertion-ordered association list with unique keys. -/
def pyInsert : List (Str × PyVal) → Str × PyVal → List (Str × PyVal)
  | [], kv => [kv]
  | (k1, v1) :: rest, kv =>
    if k1 = kv.1 then (k1, kv.2) :: rest else (k1, v1) :: pyInsert rest kv

/-- Dict lookup (keys are unique, so the first hit is the value). -/
def dictGet (d : List (Str × PyVal)) (k : Str) : Option PyVal :=
  (d.find? (fun e => e.1 == k)).map Prod.snd

/-- One assembled result row of `do_search` (src/app.py line 139):
the dict `score:, match:, **row.to_dict()` — later keys overwrite. -/
abbrev OutRow := List (Str × PyVal)

/-- Column name `score`. -/
def scoreKey : Str := "score".toList

/-- Column name `match`. -/
def matchKey : Str := "match".toList

/-- Build one output row (src/app.py line 139). -/
def mkRow (metaCols : List Str) (cells : List PyVal) (score : Nat) : OutRow :=
  (metaCols.zip cells).foldl pyInsert
    [(scoreKey, .int score), (matchKey, cellValue metaCols cells dispKey)]

/-- The score column of an output row, as read by
`sort_values("score", ...)`. -/
def scoreOf (r : OutRow) : Nat :=
  match dictGet r scoreKey with
  | some (.int n) => n
  | _ => 0

/-- Row comparison used by `sort_values("score", ascending=False,
kind="mergesort")`: stable, higher scores first. -/
def rowLe (a b : OutRow) : Bool :=
  scoreOf b ≤ scoreOf a

/-- The triples of `process.extract(...)` that pass the `score >= min_score`
test of the loop in src/app.py lines 136-137, after the empty-query early
return of lines 131-133. -/
def searchHits (query : Str) (choices : List Str) (scorer : Str → Str → Nat)
    (limit : Nat) (min_score : Int) : List (Str × Nat × Nat) :=
  let qn := normalize_text (.str query)
  if qn.isEmpty then []
  else (extract qn choices scorer limit).filter (fun t => min_score ≤ (t.2.1 : Int))

/-- `do_search` (src/app.py lines 130-145): normalize the query, return
nothing for an empty normalized query, otherwise extract, filter by
`min_score`, assemble rows, and stably sort them by score descending (an
empty row list yields the empty frame). -/
def do_search (query : Str) (choices : List Str) (metaCols : List Str)
    (metaRows : List (List PyVal)) (scorer : Str → Str → Nat) (limit : Nat)
    (min_score : Int) : List OutRow :=
  let rows := (searchHits query choices scorer limit min_score).map
    (fun t => mkRow metaCols (metaRows.getD t.2.2 []) t.2.1)
  if rows.isEmpty then [] else List.mergeSort rows rowLe

/-- The ranked-query contract stated by the specification (spec §4.4),
written from its words: rank the whole scored corpus by score descending
with the stable tie-break, keep the entries with `score >= minScore`,
truncate to at most `maxResults` only after ranking, and assemble rows in
that order (empty normalized queries return the empty sequence). -/
def specSearch (query : Str) (choices : List Str) (metaCols : List Str)
    (metaRows : List (List PyVal)) (scorer : Str → Str → Nat) (limit : Nat)
    (min_score : Int) : List OutRow :=
  let qn := normalize_text (.str query)
  if qn.isEmpty then []
  else
    ((((List.mergeSort (scoredAll qn choices scorer) scoreDescLe).filter
        (fun t => min_score ≤ (t.2.1 : Int))).take limit).map
      (fun t => mkRow metaCols (metaRows.getD t.2.2 []) t.2.1))

/-! ## Generic list and dict lemmas -/

/-- Insert `a` into a sorted list, after every strictly-better element and
before every tied one (the placement a stable sort gives an element coming
from the front). -/
def insertS (le : α → α → Bool) (a : α) : List α → List α
  | [] => [a]
  | b :: l => if le a b then a :: b :: l else b :: insertS le a l

/-- Structurally recursive stable sort; proved equal to `List.mergeSort`
below so closed goals about the engine can be evaluated by the kernel. -/
def sortStable (le : α → α → Bool) (l : List α) : List α :=
  l.foldr (insertS le) []

/-! ## Scorer registry

The four similarity scorers are `rapidfuzz` library functions; their code is
not part of this repository (src/app.py line 107 only names them).  They are
modelled here from the specification's §4.2 descriptions. -/

/-- Length of a longest common subsequence (the classic recursion). -/
def lcsLen : Str → Str → Nat
  | [], _ => 0
  | _, [] => 0
  | a :: as, b :: bs =>
    if a = b then 1 + lcsLen as bs
    else max (lcsLen (a :: as) bs) (lcsLen as (b :: bs))
termination_by a b => a.length + b.length
decreasing_by
  all_goals (simp only [List.length_cons]; omega)

/-- Modelled from the spec: the direct length-weighted edit-similarity
ratio on which every scorer is built, an integer in [0,100]; the
similarity of two empty strings is defined as 0, not 100 (§4.2). -/
def simRatio (a b : Str) : Nat :=
  if a.isEmpty && b.isEmpty then 0
  else (200 * lcsLen a b) / (a.length + b.length)

/-- Lexicographic order on strings, for token sorting. -/
def strLe : Str → Str → Bool
  | [], _ => true
  | _ :: _, [] => false
  | a :: as, b :: bs => if a = b then strLe as bs else decide (a < b)

/-- Whitespace tokens of a string, sorted lexicographically. -/
def sortTokens (s : Str) : List Str :=
  sortStable strLe (splitWs s)

/-- Modelled from the spec: token sort ratio — tokenize on whitespace, sort
tokens, rejoin, then take the direct similarity ratio (§4.2). -/
def scoreTokenSort (a b : Str) : Nat :=
  simRatio (pyJoin [' '] (sortTokens a)) (pyJoin [' '] (sortTokens b))

/-- Modelled from the spec: token set ratio — deduplicate tokens into sets
and compare the sorted intersection/union-derived strings (§4.2). -/
def scoreTokenSet (a b : Str) : Nat :=
  let ta := sortStable strLe (splitWs a).eraseDups
  let tb := sortStable strLe (splitWs b).eraseDups
  let sect := ta.filter (fun t => tb.contains t)
  let da := ta.filter (fun t => !tb.contains t)
  let db := tb.filter (fun t => !ta.contains t)
  let s1 := pyJoin [' '] sect
  let s2 := pyJoin [' '] (sect ++ da)
  let s3 := pyJoin [' '] (sect ++ db)
  max (simRatio s1 s2) (max (simRatio s1 s3) (simRatio s2 s3))

/-- All contiguous substrings of length `n` of `l` (for the best-aligned
substring search of the partial scorer). -/
def windows (n : Nat) (l : Str) : List Str :=
  (List.range (l.length - n + 1)).map (fun i => (l.drop i).take n)

/-- Modelled from the spec: partial ratio — the best similarity ratio of
the shorter string against every aligned substring of the longer (§4.2). -/
def scoreSubstringFit (a b : Str) : Nat :=
  let p := if a.length ≤ b.length then (a, b) else (b, a)
  ((windows p.1.length p.2).map (fun w => simRatio p.1 w)).foldl max 0

/-- Modelled from the spec: the balanced WRatio-equivalent scorer —
maximum of the direct ratio and the token-based ratios, falling back to
substring comparison when one string is much shorter (§4.2; the spec does
not fix the weighting constants, so the maximum is taken unweighted, with
the usual 1.5 length-ratio threshold for the substring fallback). -/
def scoreWRatio (a b : Str) : Nat :=
  if 2 * max a.length b.length > 3 * min a.length b.length then
    max (simRatio a b) (scoreSubstringFit a b)
  else
    max (simRatio a b) (max (scoreTokenSort a b) (scoreTokenSet a b))

/-- The scorer registry `SCORERS` (src/app.py lines 107-112), with the
implementations spec-modelled above. -/
def SCORERS : List (Str × (Str → Str → Nat)) :=
  [("WRatio (balanced)".toList, scoreWRatio),
   ("Token sort ratio".toList, scoreTokenSort),
   ("Token set ratio".toList, scoreTokenSet),
   ("Partial ratio".toList, scoreSubstringFit)]

/-- The shape of `normCore` output: a single-space join of its own
whitespace tokens, all of whose characters are fixed points of
lower-casing and transliteration and are not punctuation.  Strings of this
shape are exactly the fixed points of `normCore`. -/
def Canon (t : Str) : Prop :=
  t = pyJoin [' '] (splitWs t) ∧
    ∀ c ∈ t, pyLowerChar c = c ∧ unidecodeChar c = [c] ∧ c ∉ punctChars

theorem insertS_of_split {le : α → α → Bool} (a : α) :
    ∀ (l₁ l₂ : List α), (∀ b ∈ l₁, ¬ le a b = true) →
      (∀ b ∈ l₂, le a b = true) → insertS le a (l₁ ++ l₂) = l₁ ++ a :: l₂
  | [], [], _, _ => rfl
  | [], b :: t, _, h₂ => by
    simp [insertS, h₂ b (List.mem_cons_self b t)]
  | c :: l₁, l₂, h₁, h₂ => by
    have hc : ¬ le a c = true := h₁ c (List.mem_cons_self c l₁)
    simp only [List.cons_append, insertS, if_neg hc, List.append_eq]
    rw [insertS_of_split a l₁ l₂ (fun b hb => h₁ b (List.mem_cons_of_mem c hb)) h₂]

theorem mergeSort_eq_sortStable {le : α → α → Bool}
    (trans : ∀ (a b c : α), le a b → le b c → le a c)
    (total : ∀ (a b : α), le a b || le b a) :
    ∀ l : List α, List.mergeSort l le = sortStable le l
  | [] => by simp [sortStable]
  | a :: l => by
    obtain ⟨l₁, l₂, h1, h2, h3⟩ := List.mergeSort_cons trans total a l
    have hs : (List.mergeSort (a :: l) le).Pairwise (fun x y => le x y = true) :=
      List.sorted_mergeSort trans total _
    rw [h1] at hs
    have hl₂ : ∀ b ∈ l₂, le a b = true :=
      (List.pairwise_cons.mp (List.pairwise_append.mp hs).2.1).1
    have hl₁ : ∀ b ∈ l₁, ¬ le a b = true := fun b hb => by
      simpa using h3 b hb
    have ih := mergeSort_eq_sortStable trans total l
    rw [sortStable, List.foldr_cons, ← sortStable, ← ih, h2, h1,
      insertS_of_split a l₁ l₂ hl₁ hl₂]

theorem takeWhile_take_comm (p : α → Bool) :
    ∀ (n : Nat) (l : List α), (l.take n).takeWhile p = (l.takeWhile p).take n
  | 0, l => by simp
  | n + 1, [] => by simp
  | n + 1, a :: l => by
    by_cases h : p a
    · simp [h, List.takeWhile_cons, takeWhile_take_comm p n l]
    · simp [h, List.takeWhile_cons]

theorem filter_eq_takeWhile_of_pairwise {p : α → Bool} :
    ∀ {l : List α}, l.Pairwise (fun a b => p b = true → p a = true) →
      l.filter p = l.takeWhile p
  | [], _ => rfl
  | a :: l, h => by
    rcases List.pairwise_cons.mp h with ⟨ha, hl⟩
    by_cases hpa : p a
    · simp [hpa, filter_eq_takeWhile_of_pairwise hl]
    · simp only [List.filter_cons, List.takeWhile_cons, hpa]
      simp only [Bool.false_eq_true, if_false, cond_false]
      rw [List.filter_eq_nil_iff.mpr]
      intro b hb hpb
      exact hpa (ha b hb hpb)

theorem dictGet_pyInsert_ne (kv : Str × PyVal) (k : Str) (h : k ≠ kv.1)
    (d : List (Str × PyVal)) : dictGet (pyInsert d kv) k = dictGet d k := by
  induction d with
  | nil =>
    have hne : (kv.1 == k) = false := beq_eq_false_iff_ne.mpr (fun hx => h hx.symm)
    simp [pyInsert, dictGet, List.find?, hne]
  | cons e d ih =>
    obtain ⟨k1, v1⟩ := e
    simp only [pyInsert]
    by_cases he : k1 = kv.1
    · rw [if_pos he]
      have hne : (k1 == k) = false :=
        beq_eq_false_iff_ne.mpr (fun hx => h (hx.symm.trans he))
      simp [dictGet, List.find?, hne]
    · rw [if_neg he]
      by_cases hk : (k1 == k) = true
      · simp [dictGet, List.find?, hk]
      · have hk1 : (k1 == k) = false := by simpa using hk
        simp only [dictGet, List.find?, hk1] at ih ⊢
        exact ih

theorem dictGet_foldl_pyInsert_not_mem (kvs : List (Str × PyVal)) :
    ∀ (d : List (Str × PyVal)) (k : Str), (∀ kv ∈ kvs, k ≠ kv.1) →
      dictGet (kvs.foldl pyInsert d) k = dictGet d k := by
  induction kvs with
  | nil => intro d k _; rfl
  | cons kv kvs ih =>
    intro d k h
    simp only [List.foldl_cons]
    rw [ih (pyInsert d kv) k (fun e he => h e (List.mem_cons_of_mem kv he))]
    exact dictGet_pyInsert_ne kv k (h kv (List.mem_cons_self kv kvs)) d

theorem scoreOf_mkRow (metaCols : List Str) (cells : List PyVal) (s : Nat)
    (h : scoreKey ∉ metaCols) : scoreOf (mkRow metaCols cells s) = s := by
  unfold scoreOf mkRow
  rw [dictGet_foldl_pyInsert_not_mem]
  · simp [dictGet, List.find?]
  · intro kv hkv he
    obtain ⟨ka, va⟩ := kv
    simp only at he
    exact h (he ▸ (List.of_mem_zip hkv).1)

theorem pairwise_scoreDescLe_mergeSort (l : List (Str × Nat × Nat)) :
    (List.mergeSort l scoreDescLe).Pairwise (fun a b => scoreDescLe a b = true) :=
  List.sorted_mergeSort
    (fun a b c hab hbc => by
      simp only [scoreDescLe, decide_eq_true_eq] at *
      omega)
    (fun a b => by
      simp only [scoreDescLe]
      rcases Nat.le_total b.2.1 a.2.1 with h | h <;> simp [h])
    l

theorem mergeSort_scoreDescLe (l : List (Str × Nat × Nat)) :
    List.mergeSort l scoreDescLe = sortStable scoreDescLe l :=
  mergeSort_eq_sortStable
    (fun a b c hab hbc => by
      simp only [scoreDescLe, decide_eq_true_eq] at *
      omega)
    (fun a b => by
      simp only [scoreDescLe]
      rcases Nat.le_total b.2.1 a.2.1 with h | h <;> simp [h]) l

theorem mergeSort_rowLe (l : List OutRow) :
    List.mergeSort l rowLe = sortStable rowLe l :=
  mergeSort_eq_sortStable
    (fun a b c hab hbc => by
      simp only [rowLe, decide_eq_true_eq] at *
      omega)
    (fun a b => by
      simp only [rowLe]
      rcases Nat.le_total (scoreOf b) (scoreOf a) with h | h <;> simp [h]) l

/-- Claim C1: for every corpus, scorer, minScore and maxResults (and any
schema whose columns avoid the engine's own `score` column name),
`do_search` returns exactly what the specification demands: the full corpus
is ranked by score descending with the stable index tie-break, threshold
filtering keeps scores `>= minScore`, and truncation to `maxResults`
happens only after ranking, so the output equals the top-K of the fully
ranked, threshold-filtered list; in particular filtering after extracting
the top `limit` candidates equals filtering first and truncating last. -/
theorem do_search_eq_specSearch (query : Str) (choices : List Str)
    (metaCols : List Str) (metaRows : List (List PyVal))
    (scorer : Str → Str → Nat) (limit : Nat) (min_score : Int)
    (hscore : scoreKey ∉ metaCols) :
    do_search query choices metaCols metaRows scorer limit min_score =
      specSearch query choices metaCols metaRows scorer limit min_score := by
  unfold do_search searchHits specSearch extract
  by_cases hq : (normalize_text (.str query)).isEmpty
  · simp [hq]
  · simp only [hq, if_false, Bool.false_eq_true]
    set sorted := List.mergeSort (scoredAll (normalize_text (.str query)) choices scorer)
      scoreDescLe with hsorted
    have hpair : sorted.Pairwise (fun a b => scoreDescLe a b = true) :=
      pairwise_scoreDescLe_mergeSort _
    set p : Str × Nat × Nat → Bool := fun t => min_score ≤ (t.2.1 : Int) with hp
    have himp : ∀ {l' : List (Str × Nat × Nat)},
        l'.Pairwise (fun a b => scoreDescLe a b = true) →
        l'.Pairwise (fun a b => p b = true → p a = true) := by
      intro l' hl'
      refine hl'.imp ?_
      intro a b hab hpb
      simp only [p, decide_eq_true_eq] at *
      simp only [scoreDescLe, decide_eq_true_eq] at hab
      omega
    have hcomm : (sorted.take limit).filter p = (sorted.filter p).take limit := by
      rw [filter_eq_takeWhile_of_pairwise (himp (hpair.sublist (List.take_sublist limit sorted))),
        takeWhile_take_comm, ← filter_eq_takeWhile_of_pairwise (himp hpair)]
    rw [hcomm]
    set rows := ((sorted.filter p).take limit).map
      (fun t => mkRow metaCols (metaRows.getD t.2.2 []) t.2.1) with hrows
    have hrowsorted : rows.Pairwise (fun a b => rowLe a b = true) := by
      rw [hrows, List.pairwise_map]
      have : ((sorted.filter p).take limit).Pairwise (fun a b => scoreDescLe a b = true) :=
        hpair.sublist ((List.take_sublist limit _).trans (List.filter_sublist _))
      refine this.imp ?_
      intro a b hab
      simp only [rowLe, scoreOf_mkRow _ _ _ hscore]
      simpa [scoreDescLe] using hab
    by_cases hre : rows.isEmpty
    · rw [if_pos hre]
      exact (List.isEmpty_iff.mp hre).symm
    · rw [if_neg hre]
      exact List.mergeSort_of_sorted hrowsorted

/-- Witness for C1 at a concrete corpus: two records, a scorer with a tie,
limit 1 and threshold 10. -/
theorem do_search_eq_specSearch_witness :
    scoreKey ∉ ["Name".toList, dispKey] ∧
      do_search "bob".toList ["alice bob".toList, "bob".toList]
          ["Name".toList, dispKey]
          [[.str "Alice Bob".toList, .str "Alice Bob".toList],
           [.str "Bob".toList, .str "Bob".toList]]
          (fun _ c => c.length) 1 10 =
        specSearch "bob".toList ["alice bob".toList, "bob".toList]
          ["Name".toList, dispKey]
          [[.str "Alice Bob".toList, .str "Alice Bob".toList],
           [.str "Bob".toList, .str "Bob".toList]]
          (fun _ c => c.length) 1 10 :=
  ⟨by decide,
    do_search_eq_specSearch _ _ _ _ _ _ _ (by decide)⟩

/-- Claim C3: whenever the query normalizes to the empty string, `do_search`
returns the empty sequence immediately, for every corpus, scorer, minScore
and maxResults. -/
theorem do_search_empty_query (query : Str) (choices : List Str)
    (metaCols : List Str) (metaRows : List (List PyVal))
    (scorer : Str → Str → Nat) (limit : Nat) (min_score : Int)
    (h : normalize_text (.str query) = []) :
    do_search query choices metaCols metaRows scorer limit min_score = [] := by
  unfold do_search searchHits
  simp [h]

/-- Witness for C3: the query ", ." normalizes to the empty string and the
search over a non-trivial corpus returns nothing, at minScore 0. -/
theorem do_search_empty_query_witness :
    normalize_text (.str ", .".toList) = [] ∧
      do_search ", .".toList ["bob".toList, "alice".toList]
        ["Name".toList, dispKey]
        [[.str "Bob".toList, .str "Bob".toList],
         [.str "Alice".toList, .str "Alice".toList]]
        (fun _ _ => 100) 25 0 = [] :=
  ⟨by decide, do_search_empty_query _ _ _ _ _ _ _ (by decide)⟩

/-- Claim C4 counterexample: with the out-of-range minScore, here the value
-5, `do_search` raises no error and silently proceeds to produce a result
row — there is no fail-fast parameter validation anywhere in the code. -/
theorem do_search_no_validation_cex :
    do_search "bob".toList ["bob".toList] ["Name".toList, dispKey]
      [[.str "Bob".toList, .str "Bob".toList]] (fun _ _ => 50) 5 (-5) ≠ [] := by
  unfold do_search searchHits extract
  simp only [mergeSort_scoreDescLe, mergeSort_rowLe]
  decide

/-- Claim C4 (amended): `do_search` performs no range validation of
`min_score` or `limit`: it never fails, and an out-of-range minScore is fed
to the same threshold filter, so any minScore below 0 produces exactly the
results of minScore 0. -/
theorem do_search_minScore_nonpos (query : Str) (choices : List Str)
    (metaCols : List Str) (metaRows : List (List PyVal))
    (scorer : Str → Str → Nat) (limit : Nat) (min_score : Int)
    (h : min_score ≤ 0) :
    do_search query choices metaCols metaRows scorer limit min_score =
      do_search query choices metaCols metaRows scorer limit 0 := by
  have hfilter : searchHits query choices scorer limit min_score =
      searchHits query choices scorer limit 0 := by
    unfold searchHits
    by_cases hq : (normalize_text (.str query)).isEmpty
    · simp [hq]
    · simp only [hq, Bool.false_eq_true, if_false]
      refine List.filter_congr ?_
      intro t _
      exact decide_eq_decide.mpr
        (iff_of_true (le_trans h (Int.natCast_nonneg _)) (Int.natCast_nonneg _))
  unfold do_search
  rw [hfilter]

/-- Witness for C4's amended claim at the concrete out-of-range value -7. -/
theorem do_search_minScore_nonpos_witness :
    (-7 : Int) ≤ 0 ∧
      do_search "bob".toList ["bob".toList] ["Name".toList, dispKey]
          [[.str "Bob".toList, .str "Bob".toList]] (fun _ _ => 50) 5 (-7) =
        do_search "bob".toList ["bob".toList] ["Name".toList, dispKey]
          [[.str "Bob".toList, .str "Bob".toList]] (fun _ _ => 50) 5 0 :=
  ⟨by decide, do_search_minScore_nonpos _ _ _ _ _ _ _ (by decide)⟩

/-- Claim C5: with a non-empty normalized query and a limit that does not
truncate, corpus entry `i` is kept by the search (it appears among the
filtered hits that become result rows) if and only if its score is at least
`min_score`; in particular a score equal to the threshold is kept. -/
theorem searchHits_mem_iff (query : Str) (choices : List Str)
    (scorer : Str → Str → Nat) (limit : Nat) (min_score : Int) (i : Nat)
    (hi : i < choices.length) (hq : normalize_text (.str query) ≠ [])
    (hlim : choices.length ≤ limit) :
    ((choices[i], scorer (normalize_text (.str query)) choices[i], i) ∈
        searchHits query choices scorer limit min_score) ↔
      min_score ≤ (scorer (normalize_text (.str query)) choices[i] : Int) := by
  unfold searchHits extract
  have hq2 : (normalize_text (.str query)).isEmpty = false := by
    simpa [List.isEmpty_iff] using hq
  simp only [hq2, Bool.false_eq_true, if_false]
  rw [List.take_of_length_le
    (by simpa [scoredAll, List.length_mergeSort] using hlim)]
  constructor
  · intro h
    simpa using (List.mem_filter.mp h).2
  · intro h
    refine List.mem_filter.mpr ⟨?_, by simpa using h⟩
    rw [List.mem_mergeSort]
    unfold scoredAll
    refine List.mem_map.mpr ⟨(i, choices[i]), ?_, rfl⟩
    have hlen : i < choices.enum.length := by simpa using hi
    have heq := List.getElem_enum choices i hlen
    exact heq ▸ List.getElem_mem hlen

/-- Witness for C5 at the threshold boundary: a scorer that returns exactly
the minScore 70 keeps the entry. -/
theorem searchHits_mem_iff_witness :
    (0 < 1 ∧ normalize_text (.str "x".toList) ≠ [] ∧ 1 ≤ 5) ∧
      ("ab".toList, (70 : Nat), 0) ∈
        searchHits "x".toList ["ab".toList] (fun _ _ => 70) 5 70 :=
  ⟨⟨by decide, by decide, by decide⟩,
    (searchHits_mem_iff "x".toList ["ab".toList] (fun _ _ => 70) 5 70 0
      (by decide) (by decide) (by decide)).mpr (by decide)⟩

/-- Claim C2 (code evaluation at the failing input): a record whose selected
field is missing (NaN) gets the display string "nan" and the search key
"nan" — not the empty string — because `build_choices` renders cells with
`astype(str)` before `normalize_text` ever sees them; `normalize_text`
itself would have mapped NaN to the empty string. -/
theorem build_choices_nan_not_empty :
    (build_choices ⟨["Name".toList], [[.na]]⟩ ["Name".toList]).choices =
        ["nan".toList] ∧
      (build_choices ⟨["Name".toList], [[.na]]⟩ ["Name".toList]).metaRows =
        [[.na, .str "nan".toList]] ∧
      ("nan".toList : Str) ≠ [] ∧ normalize_text .na = [] := by
  decide

/-- Claim C6 counterexample: `normalize` applied to "Łukasz, Šaras!" does
not return "lukasz saras" — the exclamation mark is not in the fixed
punctuation set and passes through. -/
theorem normalize_example_cex :
    normalize_text (.str "Łukasz, Šaras!".toList) ≠ "lukasz saras".toList := by
  decide

/-- Claim C6 (amended): `normalize("Łukasz, Šaras!")` returns
"lukasz saras!", keeping the trailing exclamation mark. -/
theorem normalize_example_amended :
    normalize_text (.str "Łukasz, Šaras!".toList) = "lukasz saras!".toList := by
  decide

/-! ## Row-dictionary lemmas for the assembler claims -/

theorem dictGet_pyInsert_self (kv : Str × PyVal) :
    ∀ d : List (Str × PyVal), dictGet (pyInsert d kv) kv.1 = some kv.2 := by
  intro d
  induction d with
  | nil => simp [pyInsert, dictGet, List.find?]
  | cons e d ih =>
    obtain ⟨k1, v1⟩ := e
    simp only [pyInsert]
    by_cases he : k1 = kv.1
    · rw [if_pos he]
      simp [dictGet, List.find?, he]
    · rw [if_neg he]
      have hk1 : (k1 == kv.1) = false := beq_eq_false_iff_ne.mpr he
      simp only [dictGet, List.find?, hk1] at ih ⊢
      exact ih

theorem fst_mem_of_mem_zip {l1 : List Str} {l2 : List PyVal}
    {kv : Str × PyVal} (h : kv ∈ l1.zip l2) : kv.1 ∈ l1 := by
  obtain ⟨a, b⟩ := kv
  exact (List.of_mem_zip h).1

theorem dictGet_foldl_zip :
    ∀ (cols : List Str) (cells : List PyVal) (c : Str) (d : List (Str × PyVal)),
      cols.Nodup → c ∈ cols → cells.length = cols.length →
      dictGet ((cols.zip cells).foldl pyInsert d) c =
        some (cellValue cols cells c)
  | [], _, c, _, _, hc, _ => absurd hc (List.not_mem_nil c)
  | c1 :: cols, [], c, d, _, _, hlen => by simp at hlen
  | c1 :: cols, v :: cells, c, d, hnd, hc, hlen => by
    simp only [List.zip_cons_cons, List.foldl_cons]
    by_cases he : c1 = c
    · subst he
      have hnot : c1 ∉ cols := (List.nodup_cons.mp hnd).1
      rw [dictGet_foldl_pyInsert_not_mem _ _ c1
        (fun kv hkv hx => hnot (hx ▸ fst_mem_of_mem_zip hkv))]
      simpa [cellValue] using dictGet_pyInsert_self (c1, v) d
    · have hc2 : c ∈ cols := by
        rcases List.mem_cons.mp hc with h | h
        · exact absurd h.symm he
        · exact h
      rw [dictGet_foldl_zip cols cells c (pyInsert d (c1, v))
        (List.nodup_cons.mp hnd).2 hc2 (by simpa using hlen)]
      simp [cellValue, he]

theorem cellValue_append_left :
    ∀ (cols : List Str) (r : List PyVal) (c : Str) (cols2 : List Str)
      (r2 : List PyVal), c ∈ cols → r.length = cols.length →
      cellValue (cols ++ cols2) (r ++ r2) c = cellValue cols r c
  | [], _, c, _, _, hc, _ => absurd hc (List.not_mem_nil c)
  | c1 :: cols, [], c, _, _, _, hlen => by simp at hlen
  | c1 :: cols, v :: r, c, cols2, r2, hc, hlen => by
    by_cases he : c1 = c
    · simp [cellValue, he]
    · have hc2 : c ∈ cols := by
        rcases List.mem_cons.mp hc with h | h
        · exact absurd h.symm he
        · exact h
      simp only [List.cons_append, cellValue, if_neg he]
      exact cellValue_append_left cols r c cols2 r2 hc2 (by simpa using hlen)

theorem cellValue_append_singleton :
    ∀ (cols : List Str) (r : List PyVal) (c : Str) (v : PyVal), c ∉ cols →
      r.length = cols.length → cellValue (cols ++ [c]) (r ++ [v]) c = v
  | [], [], c, v, _, _ => by simp [cellValue]
  | [], _ :: _, c, v, _, hlen => by simp at hlen
  | c1 :: cols, [], c, v, _, hlen => by simp at hlen
  | c1 :: cols, v1 :: r, c, v, hc, hlen => by
    have he : c1 ≠ c := fun h => hc (h ▸ List.mem_cons_self c1 cols)
    simp only [List.cons_append, cellValue, if_neg he]
    exact cellValue_append_singleton cols r c v
      (fun h => hc (List.mem_cons_of_mem c1 h)) (by simpa using hlen)

theorem dictGet_mkRow_of_mem (metaCols : List Str) (cells : List PyVal)
    (s : Nat) (c : Str) (hnd : metaCols.Nodup) (hc : c ∈ metaCols)
    (hlen : cells.length = metaCols.length) :
    dictGet (mkRow metaCols cells s) c = some (cellValue metaCols cells c) := by
  unfold mkRow
  exact dictGet_foldl_zip metaCols cells c _ hnd hc hlen

theorem dictGet_mkRow_match (metaCols : List Str) (cells : List PyVal)
    (s : Nat) (h : matchKey ∉ metaCols) :
    dictGet (mkRow metaCols cells s) matchKey =
      some (cellValue metaCols cells dispKey) := by
  unfold mkRow
  rw [dictGet_foldl_pyInsert_not_mem _ _ matchKey
    (fun kv hkv hx => h (hx ▸ fst_mem_of_mem_zip hkv))]
  have hsm : (scoreKey == matchKey) = false := by decide
  simp [dictGet, List.find?, hsm]

/-- Every row of a `do_search` output is the assembled row of some corpus
index `i < choices.length`, at that entry's score. -/
theorem mem_do_search (query : Str) (choices : List Str) (metaCols : List Str)
    (metaRows : List (List PyVal)) (scorer : Str → Str → Nat) (limit : Nat)
    (min_score : Int) (row : OutRow)
    (h : row ∈ do_search query choices metaCols metaRows scorer limit min_score) :
    ∃ i, i < choices.length ∧
      row = mkRow metaCols (metaRows.getD i [])
        (scorer (normalize_text (.str query)) (choices.getD i [])) := by
  unfold do_search at h
  by_cases hre : ((searchHits query choices scorer limit min_score).map
      (fun t => mkRow metaCols (metaRows.getD t.2.2 []) t.2.1)).isEmpty
  · rw [if_pos hre] at h
    exact absurd h (List.not_mem_nil row)
  · rw [if_neg hre, List.mem_mergeSort] at h
    obtain ⟨t, ht, hrow⟩ := List.mem_map.mp h
    have ht2 : t ∈ extract (normalize_text (.str query)) choices scorer limit := by
      unfold searchHits at ht
      by_cases hq : (normalize_text (.str query)).isEmpty
      · rw [if_pos hq] at ht
        exact absurd ht (List.not_mem_nil t)
      · rw [if_neg hq] at ht
        exact (List.mem_filter.mp ht).1
    unfold extract at ht2
    have ht3 : t ∈ scoredAll (normalize_text (.str query)) choices scorer :=
      List.mem_mergeSort.mp (List.mem_of_mem_take ht2)
    unfold scoredAll at ht3
    obtain ⟨p, hp, hpt⟩ := List.mem_map.mp ht3
    obtain ⟨i, c⟩ := p
    have hic : choices[i]? = some c := List.mem_enum_iff_getElem?.mp hp
    have hi : i < choices.length := by
      rcases List.getElem?_eq_some.mp hic with ⟨hw, _⟩
      exact hw
    refine ⟨i, hi, ?_⟩
    rw [← hrow, ← hpt]
    simp only [List.getD_eq_getElem?_getD, hic, Option.getD_some]

theorem getD_map_lt {α β : Type} (f : α → β) (l : List α) (i : Nat)
    (hi : i < l.length) (d : α) (d2 : β) :
    (l.map f).getD i d2 = f (l.getD i d) := by
  have hsome : l[i]? = some l[i] := List.getElem?_eq_some.mpr ⟨hi, rfl⟩
  simp [List.getD_eq_getElem?_getD, List.getElem?_map, hsome]

theorem getD_mem_of_lt {α : Type} (l : List α) (i : Nat) (hi : i < l.length)
    (d : α) : l.getD i d ∈ l := by
  have hsome : l[i]? = some l[i] := List.getElem?_eq_some.mpr ⟨hi, rfl⟩
  have : l.getD i d = l[i] := by simp [List.getD_eq_getElem?_getD, hsome]
  exact this ▸ List.getElem_mem hi

theorem metaRows_getD (df : DF) (scols : List Str) (i : Nat)
    (hi : i < df.rows.length) :
    (build_choices df scols).metaRows.getD i [] =
      df.rows.getD i [] ++
        [.str (rowDisplay df.cols scols (df.rows.getD i []))] :=
  getD_map_lt _ df.rows i hi [] []

theorem metaCols_nodup (df : DF) (scols : List Str) (hnd : df.cols.Nodup)
    (hdisp : dispKey ∉ df.cols) :
    ((build_choices df scols).metaCols).Nodup := by
  simp only [build_choices]
  exact List.Nodup.append hnd (List.nodup_singleton _)
    (by simpa [List.disjoint_right] using hdisp)

/-- Claim C9: the corpus built by `build_choices` has exactly one entry per
record with aligned indices — choice `i` and meta row `i` are derived from
record `i` — and every `do_search` result row resolves, at its matched
index, every original column to that record's unchanged field value. -/
theorem build_aligned_search_resolves (df : DF) (scols : List Str)
    (query : Str) (scorer : Str → Str → Nat) (limit : Nat) (min_score : Int)
    (hnd : df.cols.Nodup) (hdisp : dispKey ∉ df.cols)
    (hlen : ∀ r ∈ df.rows, r.length = df.cols.length) :
    (build_choices df scols).choices.length = df.rows.length ∧
    (build_choices df scols).metaRows.length = df.rows.length ∧
    (∀ i, i < df.rows.length →
      (build_choices df scols).choices.getD i [] =
        normalize_text (.str (rowDisplay df.cols scols (df.rows.getD i []))) ∧
      (build_choices df scols).metaRows.getD i [] =
        df.rows.getD i [] ++
          [.str (rowDisplay df.cols scols (df.rows.getD i []))]) ∧
    (∀ row ∈ do_search query (build_choices df scols).choices
        (build_choices df scols).metaCols (build_choices df scols).metaRows
        scorer limit min_score,
      ∃ i, i < df.rows.length ∧
        ∀ c ∈ df.cols,
          dictGet row c = some (cellValue df.cols (df.rows.getD i []) c)) := by
  refine ⟨by simp [build_choices], by simp [build_choices], ?_, ?_⟩
  · intro i hi
    exact ⟨getD_map_lt _ df.rows i hi [] [], metaRows_getD df scols i hi⟩
  · intro row hrow
    obtain ⟨i, hi, hrec⟩ := mem_do_search _ _ _ _ _ _ _ _ hrow
    have hi2 : i < df.rows.length := by
      simpa [build_choices] using hi
    refine ⟨i, hi2, ?_⟩
    intro c hc
    have hrl : (df.rows.getD i []).length = df.cols.length :=
      hlen _ (getD_mem_of_lt df.rows i hi2 [])
    have hrl2 : (df.rows[i]?.getD []).length = df.cols.length := by
      simpa using hrl
    rw [hrec, metaRows_getD df scols i hi2]
    rw [dictGet_mkRow_of_mem _ _ _ c (metaCols_nodup df scols hnd hdisp)
      (by simp [build_choices, List.mem_append, hc])
      (by simp [build_choices, hrl2])]
    simp only [build_choices]
    rw [cellValue_append_left df.cols (df.rows.getD i []) c [dispKey] _ hc hrl]

/-- Witness for C9 at a one-record frame. -/
theorem build_aligned_search_resolves_witness :
    (["Name".toList].Nodup ∧ dispKey ∉ ["Name".toList] ∧
      ∀ r ∈ [[PyVal.str "Bob Marley".toList]], r.length = 1) ∧
      ((build_choices ⟨["Name".toList], [[.str "Bob Marley".toList]]⟩
          ["Name".toList]).choices.length = 1 ∧
        (build_choices ⟨["Name".toList], [[.str "Bob Marley".toList]]⟩
          ["Name".toList]).metaRows.length = 1 ∧
        (∀ i, i < 1 →
          (build_choices ⟨["Name".toList], [[.str "Bob Marley".toList]]⟩
              ["Name".toList]).choices.getD i [] =
            normalize_text (.str (rowDisplay ["Name".toList] ["Name".toList]
              ([[PyVal.str "Bob Marley".toList]].getD i []))) ∧
          (build_choices ⟨["Name".toList], [[.str "Bob Marley".toList]]⟩
              ["Name".toList]).metaRows.getD i [] =
            [[PyVal.str "Bob Marley".toList]].getD i [] ++
              [.str (rowDisplay ["Name".toList] ["Name".toList]
                ([[PyVal.str "Bob Marley".toList]].getD i []))]) ∧
        (∀ row ∈ do_search "bob".toList
            (build_choices ⟨["Name".toList], [[.str "Bob Marley".toList]]⟩
              ["Name".toList]).choices
            (build_choices ⟨["Name".toList], [[.str "Bob Marley".toList]]⟩
              ["Name".toList]).metaCols
            (build_choices ⟨["Name".toList], [[.str "Bob Marley".toList]]⟩
              ["Name".toList]).metaRows
            (fun _ _ => 90) 5 0,
          ∃ i, i < 1 ∧
            ∀ c ∈ ["Name".toList],
              dictGet row c =
                some (cellValue ["Name".toList]
                  ([[PyVal.str "Bob Marley".toList]].getD i []) c))) :=
  ⟨⟨by decide, by decide, by decide⟩,
    build_aligned_search_resolves ⟨["Name".toList], [[.str "Bob Marley".toList]]⟩
      ["Name".toList] "bob".toList (fun _ _ => 90) 5 0
      (by decide) (by decide) (by decide)⟩

/-- Claim C10: every result row of `do_search` over a corpus built by
`build_choices` still contains the internal helper column `_display`
(only `_norm` was dropped), with exactly the value of the row's `match`
column. -/
theorem do_search_display_equals_match (df : DF) (scols : List Str)
    (query : Str) (scorer : Str → Str → Nat) (limit : Nat) (min_score : Int)
    (hnd : df.cols.Nodup) (hdisp : dispKey ∉ df.cols)
    (hmatch : matchKey ∉ df.cols)
    (hlen : ∀ r ∈ df.rows, r.length = df.cols.length) :
    ∀ row ∈ do_search query (build_choices df scols).choices
        (build_choices df scols).metaCols (build_choices df scols).metaRows
        scorer limit min_score,
      ∃ v, dictGet row dispKey = some v ∧ dictGet row matchKey = some v := by
  intro row hrow
  obtain ⟨i, hi, hrec⟩ := mem_do_search _ _ _ _ _ _ _ _ hrow
  have hi2 : i < df.rows.length := by
    simpa [build_choices] using hi
  have hrl : (df.rows.getD i []).length = df.cols.length :=
    hlen _ (getD_mem_of_lt df.rows i hi2 [])
  have hrl2 : (df.rows[i]?.getD []).length = df.cols.length := by
    simpa using hrl
  rw [hrec, metaRows_getD df scols i hi2]
  refine ⟨cellValue (build_choices df scols).metaCols
    (df.rows.getD i [] ++
      [.str (rowDisplay df.cols scols (df.rows.getD i []))]) dispKey, ?_, ?_⟩
  · exact dictGet_mkRow_of_mem _ _ _ dispKey (metaCols_nodup df scols hnd hdisp)
      (by simp [build_choices]) (by simp [build_choices, hrl2])
  · exact dictGet_mkRow_match _ _ _
      (by
        simp only [build_choices, List.mem_append, List.mem_singleton]
        rintro (h | h)
        · exact hmatch h
        · exact absurd h (by decide))

/-- Witness for C10: a run with one matching record returns a non-empty
result, and its rows carry `_display` equal to `match`. -/
theorem do_search_display_equals_match_witness :
    (["Name".toList].Nodup ∧ dispKey ∉ ["Name".toList] ∧
      matchKey ∉ ["Name".toList] ∧
      (∀ r ∈ [[PyVal.str "Bob Marley".toList]],
        r.length = ["Name".toList].length)) ∧
      do_search "bob".toList
          (build_choices ⟨["Name".toList], [[.str "Bob Marley".toList]]⟩
            ["Name".toList]).choices
          (build_choices ⟨["Name".toList], [[.str "Bob Marley".toList]]⟩
            ["Name".toList]).metaCols
          (build_choices ⟨["Name".toList], [[.str "Bob Marley".toList]]⟩
            ["Name".toList]).metaRows
          (fun _ _ => 90) 5 0 ≠ [] ∧
      ∀ row ∈ do_search "bob".toList
          (build_choices ⟨["Name".toList], [[.str "Bob Marley".toList]]⟩
            ["Name".toList]).choices
          (build_choices ⟨["Name".toList], [[.str "Bob Marley".toList]]⟩
            ["Name".toList]).metaCols
          (build_choices ⟨["Name".toList], [[.str "Bob Marley".toList]]⟩
            ["Name".toList]).metaRows
          (fun _ _ => 90) 5 0,
        ∃ v, dictGet row dispKey = some v ∧ dictGet row matchKey = some v :=
  ⟨⟨by decide, by decide, by decide, by decide⟩,
    by
      unfold do_search searchHits extract
      simp only [mergeSort_scoreDescLe, mergeSort_rowLe]
      decide,
    do_search_display_equals_match ⟨["Name".toList], [[.str "Bob Marley".toList]]⟩
      ["Name".toList] "bob".toList (fun _ _ => 90) 5 0
      (by decide) (by decide) (by decide) (by decide)⟩

/-- Claim C8: each of the four named scorers of the registry is total on
empty input (every model here is a total function) and returns 0, not 100,
when applied to two empty strings. -/
theorem scorers_empty_zero : ∀ p ∈ SCORERS, p.2 [] [] = 0 := by
  intro p hp
  simp only [SCORERS, List.mem_cons, List.not_mem_nil, or_false] at hp
  rcases hp with h | h | h | h <;> subst h <;> decide

/-- Witness for C8 at the token-sort scorer. -/
theorem scorers_empty_zero_witness :
    (("Token sort ratio".toList, scoreTokenSort) ∈ SCORERS) ∧
      scoreTokenSort [] [] = 0 := by
  have hm : ("Token sort ratio".toList, scoreTokenSort) ∈ SCORERS := by
    unfold SCORERS
    exact List.mem_cons_of_mem _ (List.mem_cons_self _ _)
  exact ⟨hm, scorers_empty_zero _ hm⟩

/-! ## Idempotence of normalization (claim C7) -/

theorem takeWhile_of_forall (p : Char → Bool) :
    ∀ (l : Str), (∀ a ∈ l, p a = true) → l.takeWhile p = l := by
  intro l
  induction l with
  | nil => intro _; rfl
  | cons a l ih =>
    intro h
    rw [List.takeWhile_cons_of_pos (h a (List.mem_cons_self a l)),
      ih (fun b hb => h b (List.mem_cons_of_mem a hb))]

theorem dropWhile_of_forall (p : Char → Bool) :
    ∀ (l : Str), (∀ a ∈ l, p a = true) → l.dropWhile p = [] := by
  intro l
  induction l with
  | nil => intro _; rfl
  | cons a l ih =>
    intro h
    rw [List.dropWhile_cons_of_pos (h a (List.mem_cons_self a l)),
      ih (fun b hb => h b (List.mem_cons_of_mem a hb))]

theorem pred_of_mem_takeWhile (p : Char → Bool) :
    ∀ (l : Str) (a : Char), a ∈ l.takeWhile p → p a = true := by
  intro l
  induction l with
  | nil =>
    intro a ha
    exact absurd ha (List.not_mem_nil a)
  | cons c l ih =>
    intro a ha
    by_cases hc : p c
    · rw [List.takeWhile_cons_of_pos hc] at ha
      rcases List.mem_cons.mp ha with h | h
      · exact h ▸ hc
      · exact ih a h
    · rw [List.takeWhile_cons_of_neg hc] at ha
      exact absurd ha (List.not_mem_nil a)

theorem map_id_of_forall {α : Type} (f : α → α) :
    ∀ (l : List α), (∀ a ∈ l, f a = a) → l.map f = l := by
  intro l
  induction l with
  | nil => intro _; rfl
  | cons a l ih =>
    intro h
    rw [List.map_cons, h a (List.mem_cons_self a l),
      ih (fun b hb => h b (List.mem_cons_of_mem a hb))]

theorem flatMap_id_of_forall (f : Char → Str) :
    ∀ (l : Str), (∀ a ∈ l, f a = [a]) → l.flatMap f = l := by
  intro l
  induction l with
  | nil => intro _; rfl
  | cons a l ih =>
    intro h
    rw [List.flatMap_cons, h a (List.mem_cons_self a l),
      ih (fun b hb => h b (List.mem_cons_of_mem a hb)), List.singleton_append]

theorem splitWsAux_acc :
    ∀ (s acc : Str), acc ≠ [] →
      splitWsAux s acc =
        (acc.reverse ++ s.takeWhile (fun d => !pyIsSpace d)) ::
          splitWs (s.dropWhile (fun d => !pyIsSpace d)) := by
  intro s
  induction s with
  | nil =>
    intro acc hacc
    have hne : acc.isEmpty = false := by simpa [List.isEmpty_iff] using hacc
    simp [splitWsAux, hne, splitWs]
  | cons c cs ih =>
    intro acc hacc
    have hne : acc.isEmpty = false := by simpa [List.isEmpty_iff] using hacc
    by_cases hc : pyIsSpace c
    · simp only [splitWsAux, hc, if_true, hne, Bool.false_eq_true, if_false,
        List.takeWhile_cons_of_neg (by simp [hc] : ¬ (!pyIsSpace c) = true),
        List.dropWhile_cons_of_neg (by simp [hc] : ¬ (!pyIsSpace c) = true)]
      simp [splitWs, splitWsAux, hc]
    · have hb : (!pyIsSpace c) = true := by simp [hc]
      simp only [splitWsAux, hc, Bool.false_eq_true, if_false]
      rw [ih (c :: acc) (by simp)]
      simp [List.takeWhile_cons, List.dropWhile_cons, hb]

theorem splitWs_nil : splitWs [] = [] := rfl

theorem splitWs_cons_ws {c : Char} (cs : Str) (hc : pyIsSpace c = true) :
    splitWs (c :: cs) = splitWs cs := by
  simp [splitWs, splitWsAux, hc]

theorem splitWs_cons_nonws {c : Char} (cs : Str) (hc : ¬ pyIsSpace c = true) :
    splitWs (c :: cs) =
      (c :: cs.takeWhile (fun d => !pyIsSpace d)) ::
        splitWs (cs.dropWhile (fun d => !pyIsSpace d)) := by
  show splitWsAux (c :: cs) [] = _
  simp only [splitWsAux, hc, Bool.false_eq_true, if_false]
  by_cases hcs : cs = []
  · subst hcs
    simp [splitWsAux, splitWs]
  · rw [splitWsAux_acc cs [c] (by simp)]
    simp

theorem splitWs_all_ws : ∀ (u : Str), (∀ c ∈ u, pyIsSpace c = true) →
    splitWs u = [] := by
  intro u
  induction u with
  | nil => intro _; rfl
  | cons c u ih =>
    intro h
    rw [splitWs_cons_ws u (h c (List.mem_cons_self c u))]
    exact ih (fun b hb => h b (List.mem_cons_of_mem c hb))

theorem splitWsAux_tokens :
    ∀ (s acc : Str), (∀ c ∈ acc, pyIsSpace c = false) →
      ∀ tok ∈ splitWsAux s acc, tok ≠ [] ∧
        ∀ c ∈ tok, pyIsSpace c = false ∧ (c ∈ s ∨ c ∈ acc) := by
  intro s
  induction s with
  | nil =>
    intro acc hacc tok htok
    by_cases he : acc.isEmpty
    · simp [splitWsAux, he] at htok
    · have hrw : splitWsAux [] acc = [acc.reverse] := by simp [splitWsAux, he]
      rw [hrw] at htok
      rcases List.mem_cons.mp htok with h | h
      · subst h
        refine ⟨?_, ?_⟩
        · intro hrev
          exact he (by simp [List.reverse_eq_nil_iff.mp hrev])
        · intro c hc
          rw [List.mem_reverse] at hc
          exact ⟨hacc c hc, Or.inr hc⟩
      · exact absurd h (List.not_mem_nil tok)
  | cons ch cs ih =>
    intro acc hacc tok htok
    by_cases hc : pyIsSpace ch
    · by_cases he : acc.isEmpty
      · have hrw : splitWsAux (ch :: cs) acc = splitWsAux cs [] := by
          simp [splitWsAux, hc, he]
        rw [hrw] at htok
        obtain ⟨h1, h2⟩ := ih [] (by simp) tok htok
        refine ⟨h1, fun c hcc => ⟨(h2 c hcc).1, ?_⟩⟩
        rcases (h2 c hcc).2 with h3 | h3
        · exact Or.inl (List.mem_cons_of_mem ch h3)
        · exact absurd h3 (List.not_mem_nil c)
      · have hrw : splitWsAux (ch :: cs) acc = acc.reverse :: splitWsAux cs [] := by
          simp [splitWsAux, hc, he]
        rw [hrw] at htok
        rcases List.mem_cons.mp htok with h | h
        · subst h
          refine ⟨?_, ?_⟩
          · intro hrev
            exact he (by simp [List.reverse_eq_nil_iff.mp hrev])
          · intro c hcc
            rw [List.mem_reverse] at hcc
            exact ⟨hacc c hcc, Or.inr hcc⟩
        · obtain ⟨h1, h2⟩ := ih [] (by simp) tok h
          refine ⟨h1, fun c hcc => ⟨(h2 c hcc).1, ?_⟩⟩
          rcases (h2 c hcc).2 with h3 | h3
          · exact Or.inl (List.mem_cons_of_mem ch h3)
          · exact absurd h3 (List.not_mem_nil c)
    · have hrw : splitWsAux (ch :: cs) acc = splitWsAux cs (ch :: acc) := by
        simp [splitWsAux, hc]
      rw [hrw] at htok
      have hacc2 : ∀ c ∈ ch :: acc, pyIsSpace c = false := by
        intro c hcc
        rcases List.mem_cons.mp hcc with h | h
        · subst h
          simpa using hc
        · exact hacc c h
      obtain ⟨h1, h2⟩ := ih (ch :: acc) hacc2 tok htok
      refine ⟨h1, fun c hcc => ⟨(h2 c hcc).1, ?_⟩⟩
      rcases (h2 c hcc).2 with h3 | h3
      · exact Or.inl (List.mem_cons_of_mem ch h3)
      · rcases List.mem_cons.mp h3 with h4 | h4
        · exact Or.inl (h4 ▸ List.mem_cons_self ch cs)
        · exact Or.inr h4

theorem splitWs_tokens (s : Str) :
    ∀ tok ∈ splitWs s, tok ≠ [] ∧ ∀ c ∈ tok, pyIsSpace c = false ∧ c ∈ s := by
  intro tok htok
  obtain ⟨h1, h2⟩ := splitWsAux_tokens s [] (by simp) tok htok
  refine ⟨h1, fun c hcc => ⟨(h2 c hcc).1, ?_⟩⟩
  rcases (h2 c hcc).2 with h | h
  · exact h
  · exact absurd h (List.not_mem_nil c)

theorem splitWs_single (t : Str) (hne : t ≠ [])
    (h : ∀ c ∈ t, pyIsSpace c = false) : splitWs t = [t] := by
  cases t with
  | nil => exact absurd rfl hne
  | cons c cs =>
    have hc : ¬ pyIsSpace c = true := by simp [h c (List.mem_cons_self c cs)]
    rw [splitWs_cons_nonws cs hc,
      takeWhile_of_forall (fun d => !pyIsSpace d) cs
        (fun a ha => by simp [h a (List.mem_cons_of_mem c ha)]),
      dropWhile_of_forall (fun d => !pyIsSpace d) cs
        (fun a ha => by simp [h a (List.mem_cons_of_mem c ha)]),
      splitWs_nil]

theorem takeWhile_token_append (w : Str) :
    ∀ (t : Str), (∀ c ∈ t, pyIsSpace c = false) →
      (t ++ ' ' :: w).takeWhile (fun d => !pyIsSpace d) = t ∧
        (t ++ ' ' :: w).dropWhile (fun d => !pyIsSpace d) = ' ' :: w := by
  have hsp : pyIsSpace ' ' = true := by decide
  intro t
  induction t with
  | nil =>
    intro _
    constructor
    · rw [List.nil_append]
      simp [List.takeWhile_cons, hsp]
    · rw [List.nil_append]
      simp [List.dropWhile_cons, hsp]
  | cons c t ih =>
    intro h
    have hb : pyIsSpace c = false := h c (List.mem_cons_self c t)
    obtain ⟨h1, h2⟩ := ih (fun b hb2 => h b (List.mem_cons_of_mem c hb2))
    constructor
    · simp [List.takeWhile_cons, hb, h1]
    · simp [List.dropWhile_cons, hb, h2]

theorem splitWs_token_join (w : Str) (t : Str) (hne : t ≠ [])
    (h : ∀ c ∈ t, pyIsSpace c = false) :
    splitWs (t ++ ' ' :: w) = t :: splitWs w := by
  cases t with
  | nil => exact absurd rfl hne
  | cons c t =>
    have hc : ¬ pyIsSpace c = true := by simp [h c (List.mem_cons_self c t)]
    rw [List.cons_append, splitWs_cons_nonws _ hc]
    obtain ⟨h1, h2⟩ :=
      takeWhile_token_append w t (fun b hb => h b (List.mem_cons_of_mem c hb))
    rw [h1, h2, splitWs_cons_ws w (by decide)]

theorem splitWs_join :
    ∀ (toks : List Str),
      (∀ tok ∈ toks, tok ≠ [] ∧ ∀ c ∈ tok, pyIsSpace c = false) →
      splitWs (pyJoin [' '] toks) = toks := by
  intro toks
  induction toks with
  | nil => intro _; rfl
  | cons t ts ih =>
    intro h
    cases ts with
    | nil =>
      obtain ⟨h1, h2⟩ := h t (List.mem_cons_self t [])
      exact splitWs_single t h1 h2
    | cons t2 ts2 =>
      obtain ⟨h1, h2⟩ := h t (List.mem_cons_self _ _)
      have hj : pyJoin [' '] (t :: t2 :: ts2) =
          t ++ ' ' :: pyJoin [' '] (t2 :: ts2) := by
        show t ++ [' '] ++ pyJoin [' '] (t2 :: ts2) = _
        simp
      rw [hj, splitWs_token_join _ t h1 h2,
        ih (fun tok htok => h tok (List.mem_cons_of_mem t htok))]

theorem takeWhile_append_allws (u : Str) (hu : ∀ c ∈ u, pyIsSpace c = true) :
    ∀ (cs : Str),
      (cs ++ u).takeWhile (fun d => !pyIsSpace d) =
          cs.takeWhile (fun d => !pyIsSpace d) ∧
        (cs ++ u).dropWhile (fun d => !pyIsSpace d) =
          cs.dropWhile (fun d => !pyIsSpace d) ++ u := by
  intro cs
  induction cs with
  | nil =>
    constructor
    · cases u with
      | nil => rfl
      | cons w u2 =>
        have hw : pyIsSpace w = true := hu w (List.mem_cons_self w u2)
        simp [List.takeWhile_cons, hw]
    · cases u with
      | nil => rfl
      | cons w u2 =>
        have hw : pyIsSpace w = true := hu w (List.mem_cons_self w u2)
        simp [List.dropWhile_cons, hw]
  | cons d cs ih =>
    by_cases hd : pyIsSpace d
    · constructor
      · simp [List.takeWhile_cons, hd]
      · simp [List.dropWhile_cons, hd]
    · have hd2 : pyIsSpace d = false := by simpa using hd
      obtain ⟨h1, h2⟩ := ih
      constructor
      · simp [List.takeWhile_cons, hd2, h1]
      · simp [List.dropWhile_cons, hd2, h2]

theorem splitWs_append_allws :
    ∀ (t u : Str), (∀ c ∈ u, pyIsSpace c = true) → splitWs (t ++ u) = splitWs t
  | [], u, hu => by simpa using splitWs_all_ws u hu
  | c :: cs, u, hu => by
    by_cases hc : pyIsSpace c
    · rw [List.cons_append, splitWs_cons_ws (cs ++ u) hc,
        splitWs_append_allws cs u hu, splitWs_cons_ws cs hc]
    · obtain ⟨h1, h2⟩ := takeWhile_append_allws u hu cs
      rw [List.cons_append, splitWs_cons_nonws _ hc, splitWs_cons_nonws cs hc,
        h1, h2,
        splitWs_append_allws (cs.dropWhile fun d => !pyIsSpace d) u hu]
termination_by t _ _ => t.length
decreasing_by
  · simp
  · have hsub : (List.dropWhile (fun d => !pyIsSpace d) cs).Sublist cs :=
      List.dropWhile_sublist _
    have := hsub.length_le
    simp
    omega

theorem splitWs_allws_append :
    ∀ (u t : Str), (∀ c ∈ u, pyIsSpace c = true) → splitWs (u ++ t) = splitWs t := by
  intro u
  induction u with
  | nil => intro t _; rfl
  | cons w u ih =>
    intro t hu
    rw [List.cons_append, splitWs_cons_ws _ (hu w (List.mem_cons_self w u))]
    exact ih t (fun b hb => hu b (List.mem_cons_of_mem w hb))

theorem splitWs_pyStrip (t : Str) : splitWs (pyStrip t) = splitWs t := by
  unfold pyStrip
  have step1 : splitWs t = splitWs (t.dropWhile pyIsSpace) := by
    calc splitWs t
        = splitWs (t.takeWhile pyIsSpace ++ t.dropWhile pyIsSpace) := by
          rw [List.takeWhile_append_dropWhile]
      _ = splitWs (t.dropWhile pyIsSpace) :=
          splitWs_allws_append _ _
            (fun c hc => pred_of_mem_takeWhile pyIsSpace t c hc)
  have hdecomp : t.dropWhile pyIsSpace =
      ((t.dropWhile pyIsSpace).reverse.dropWhile pyIsSpace).reverse ++
        ((t.dropWhile pyIsSpace).reverse.takeWhile pyIsSpace).reverse := by
    calc t.dropWhile pyIsSpace
        = (t.dropWhile pyIsSpace).reverse.reverse := by rw [List.reverse_reverse]
      _ = ((t.dropWhile pyIsSpace).reverse.takeWhile pyIsSpace ++
            (t.dropWhile pyIsSpace).reverse.dropWhile pyIsSpace).reverse := by
          rw [List.takeWhile_append_dropWhile]
      _ = ((t.dropWhile pyIsSpace).reverse.dropWhile pyIsSpace).reverse ++
            ((t.dropWhile pyIsSpace).reverse.takeWhile pyIsSpace).reverse := by
          rw [List.reverse_append]
  have step2 : splitWs (t.dropWhile pyIsSpace) =
      splitWs (((t.dropWhile pyIsSpace).reverse.dropWhile pyIsSpace).reverse) := by
    conv_lhs => rw [hdecomp]
    exact splitWs_append_allws _ _
      (fun c hc => pred_of_mem_takeWhile pyIsSpace _ c (by
        rw [List.mem_reverse] at hc
        exact hc))
  rw [step1, step2]

theorem mem_pyJoin :
    ∀ (toks : List Str) (c : Char), c ∈ pyJoin [' '] toks →
      c = ' ' ∨ ∃ tok, tok ∈ toks ∧ c ∈ tok := by
  intro toks
  induction toks with
  | nil =>
    intro c hc
    exact absurd hc (List.not_mem_nil c)
  | cons t ts ih =>
    intro c hc
    cases ts with
    | nil =>
      exact Or.inr ⟨t, List.mem_cons_self t [], hc⟩
    | cons t2 ts2 =>
      have hj : pyJoin [' '] (t :: t2 :: ts2) =
          t ++ ' ' :: pyJoin [' '] (t2 :: ts2) := by
        show t ++ [' '] ++ pyJoin [' '] (t2 :: ts2) = _
        simp
      rw [hj] at hc
      rcases List.mem_append.mp hc with h | h
      · exact Or.inr ⟨t, List.mem_cons_self _ _, h⟩
      · rcases List.mem_cons.mp h with h2 | h2
        · exact Or.inl h2
        · rcases ih c h2 with h3 | ⟨tok, htok, hctok⟩
          · exact Or.inl h3
          · exact Or.inr ⟨tok, List.mem_cons_of_mem t htok, hctok⟩

theorem foldl_replace_eq_map :
    ∀ (L : List Char), ' ' ∉ L → ∀ (s : Str),
      L.foldl (fun t ch => replaceBySpace ch t) s =
        s.map (fun c => if c ∈ L then ' ' else c) := by
  intro L
  induction L with
  | nil =>
    intro _ s
    rw [List.foldl_nil]
    exact (map_id_of_forall _ s (fun a _ => by simp)).symm
  | cons ch L ih =>
    intro hsp s
    have hspL : ' ' ∉ L := fun h => hsp (List.mem_cons_of_mem ch h)
    rw [List.foldl_cons, ih hspL (replaceBySpace ch s), replaceBySpace,
      List.map_map]
    refine List.map_congr_left ?_
    intro a _
    by_cases ha : a = ch
    · subst ha
      simp [hspL]
    · by_cases haL : a ∈ L
      · simp [ha, haL]
      · simp [ha, haL]

theorem punctToSpace_eq_map (s : Str) :
    punctToSpace s = s.map (fun c => if c ∈ punctChars then ' ' else c) := by
  unfold punctToSpace
  exact foldl_replace_eq_map punctChars (by decide) s

theorem punctToSpace_id (t : Str) (h : ∀ c ∈ t, c ∉ punctChars) :
    punctToSpace t = t := by
  rw [punctToSpace_eq_map]
  exact map_id_of_forall _ t (fun a ha => by simp [h a ha])

theorem lookup_mem_char {β : Type} :
    ∀ (l : List (Char × β)) (k : Char) (v : β),
      l.lookup k = some v → (k, v) ∈ l := by
  intro l
  induction l with
  | nil =>
    intro k v h
    simp [List.lookup] at h
  | cons e l ih =>
    intro k v h
    obtain ⟨k1, v1⟩ := e
    simp only [List.lookup] at h
    by_cases hk : (k == k1) = true
    · rw [hk] at h
      cases eq_of_beq hk
      cases Option.some.inj h
      exact List.mem_cons_self _ _
    · have hk2 : (k == k1) = false := by simpa using hk
      rw [hk2] at h
      exact List.mem_cons_of_mem _ (ih k v h)

theorem goodChar_step (c d : Char) (hd : d ∈ unidecodeChar (pyLowerChar c)) :
    pyLowerChar d = d ∧ unidecodeChar d = [d] := by
  unfold pyLowerChar at hd
  cases hlc : lowerTable.lookup c with
  | some v =>
    rw [hlc] at hd
    have hv : (c, v) ∈ lowerTable := lookup_mem_char _ _ _ hlc
    have hall : ∀ p ∈ lowerTable, ∀ e ∈ unidecodeChar p.2,
        pyLowerChar e = e ∧ unidecodeChar e = [e] := by decide
    exact hall (c, v) hv d hd
  | none =>
    rw [hlc] at hd
    simp only [Option.getD_none] at hd
    cases huc : uniTable.lookup c with
    | some out =>
      have hv : (c, out) ∈ uniTable := lookup_mem_char _ _ _ huc
      have hall : ∀ p ∈ uniTable, lowerTable.lookup p.1 = none →
          ∀ e ∈ p.2, pyLowerChar e = e ∧ unidecodeChar e = [e] := by decide
      unfold unidecodeChar at hd
      rw [huc] at hd
      exact hall (c, out) hv hlc d hd
    | none =>
      unfold unidecodeChar at hd
      rw [huc] at hd
      simp only [Option.getD_none, List.mem_singleton] at hd
      subst hd
      constructor
      · unfold pyLowerChar
        rw [hlc]
        rfl
      · unfold unidecodeChar
        rw [huc]
        rfl

theorem normCore_of_canon (t : Str) (h : Canon t) : normCore t = t := by
  obtain ⟨hjoin, hchars⟩ := h
  have hsub : ∀ c ∈ pyStrip t, c ∈ t := by
    intro c hc
    unfold pyStrip at hc
    rw [List.mem_reverse] at hc
    have hc2 := List.dropWhile_subset pyIsSpace hc
    rw [List.mem_reverse] at hc2
    exact List.dropWhile_subset pyIsSpace hc2
  have h1 : (pyStrip t).map pyLowerChar = pyStrip t :=
    map_id_of_forall _ _ (fun c hc => (hchars c (hsub c hc)).1)
  have h2 : (pyStrip t).flatMap unidecodeChar = pyStrip t :=
    flatMap_id_of_forall _ _ (fun c hc => (hchars c (hsub c hc)).2.1)
  have h3 : punctToSpace (pyStrip t) = pyStrip t :=
    punctToSpace_id _ (fun c hc => (hchars c (hsub c hc)).2.2)
  unfold normCore pyLower unidecodeStr
  rw [h1, h2, h3, splitWs_pyStrip]
  exact hjoin.symm

theorem normCore_canon (s : Str) : Canon (normCore s) := by
  unfold Canon normCore
  have htoks := splitWs_tokens (punctToSpace (unidecodeStr (pyLower (pyStrip s))))
  constructor
  · rw [splitWs_join
      (splitWs (punctToSpace (unidecodeStr (pyLower (pyStrip s)))))
      (fun tok htok => ⟨(htoks tok htok).1,
        fun c hc => ((htoks tok htok).2 c hc).1⟩)]
  · intro c hc
    rcases mem_pyJoin _ c hc with hsp | ⟨tok, htok, hctok⟩
    · subst hsp
      exact ⟨by decide, by decide, by decide⟩
    · obtain ⟨hws, hcu⟩ := (htoks tok htok).2 c hctok
      rw [punctToSpace_eq_map] at hcu
      obtain ⟨d, hd, hde⟩ := List.mem_map.mp hcu
      by_cases hdp : d ∈ punctChars
      · rw [if_pos hdp] at hde
        subst hde
        exact absurd hws (by decide)
      · rw [if_neg hdp] at hde
        subst hde
        unfold unidecodeStr at hd
        obtain ⟨e, he, hdm⟩ := List.mem_flatMap.mp hd
        unfold pyLower at he
        obtain ⟨e0, he0, hee⟩ := List.mem_map.mp he
        rw [← hee] at hdm
        obtain ⟨hl, hu2⟩ := goodChar_step e0 d hdm
        exact ⟨hl, hu2, hdp⟩

theorem normCore_idem (s : Str) : normCore (normCore s) = normCore s :=
  normCore_of_canon _ (normCore_canon s)

/-- Claim C7: normalization is idempotent — for every input string,
normalizing the output of `normalize_text` leaves it unchanged. -/
theorem normalize_text_idem (s : Str) :
    normalize_text (.str (normalize_text (.str s))) = normalize_text (.str s) := by
  simp only [normalize_text, pdIsNA, pyStr, Bool.false_eq_true, if_false]
  exact normCore_idem s


